import Mathlib

/-!
# Verification of the geo-index packed R-tree / KD-tree specification

The repository ships the Python-facing tests, benchmarks and enum helpers;
the index engine itself (builder, bulk loader, query engine, serializer)
is described by the specification.  The definitions below embed that engine:
every definition whose doc comment starts with `Modelled from the spec:`
renders the corresponding component of the missing core, faithful to the
spec's words; the `enums.py` material at the end is translated directly from
the Python source.

Coordinates are modelled as rationals (`ℚ`): the engine only compares,
takes min/max, and quantizes coordinates, and all concrete inputs in the
repository's tests are exactly representable.
-/

namespace GeoIndex

/-- Modelled from the spec (§3): a bounding box
`(min_x, min_y, max_x, max_y)`. -/
structure Box where
  minX : ℚ
  minY : ℚ
  maxX : ℚ
  maxY : ℚ
deriving DecidableEq, Repr

/-- Modelled from the spec (§4.5): the box-overlap test
`not (a.maxx < b.minx || a.minx > b.maxx || …)`, closed per axis. -/
def intersects (a b : Box) : Bool :=
  !(decide (a.maxX < b.minX) || decide (a.minX > b.maxX) ||
    decide (a.maxY < b.minY) || decide (a.minY > b.maxY))

/-- Box containment (`inner` lies inside `outer`), used to state the
union invariant of internal nodes. -/
def boxSub (inner outer : Box) : Prop :=
  outer.minX ≤ inner.minX ∧ outer.minY ≤ inner.minY ∧
    inner.maxX ≤ outer.maxX ∧ inner.maxY ≤ outer.maxY

/-- Modelled from the spec (§3 invariant 2): the union of two boxes. -/
def boxUnion (a b : Box) : Box :=
  ⟨min a.minX b.minX, min a.minY b.minY, max a.maxX b.maxX, max a.maxY b.maxY⟩

/-- Modelled from the spec (§4.3 step 4): the bounding box of a list of
boxes (a parent's box is the union of its children's boxes). -/
def unionBoxes (l : List Box) : Box :=
  match l with
  | [] => ⟨0, 0, 0, 0⟩
  | b :: t => t.foldl boxUnion b

theorem boxSub_refl (b : Box) : boxSub b b := by
  simp [boxSub]

theorem boxSub_trans {a b c : Box} (h₁ : boxSub a b) (h₂ : boxSub b c) :
    boxSub a c := by
  obtain ⟨p1, p2, p3, p4⟩ := h₁
  obtain ⟨q1, q2, q3, q4⟩ := h₂
  exact ⟨le_trans q1 p1, le_trans q2 p2, le_trans p3 q3, le_trans p4 q4⟩

theorem boxSub_boxUnion_left (a b : Box) : boxSub a (boxUnion a b) := by
  simp [boxSub, boxUnion]

theorem boxSub_boxUnion_right (a b : Box) : boxSub b (boxUnion a b) := by
  simp [boxSub, boxUnion]

theorem boxSub_foldl (l : List Box) (acc : Box) :
    boxSub acc (l.foldl boxUnion acc) := by
  induction l generalizing acc with
  | nil => exact boxSub_refl acc
  | cons b t ih =>
      exact boxSub_trans (boxSub_boxUnion_left acc b) (ih (boxUnion acc b))

theorem boxSub_foldl_mem {l : List Box} {b : Box} (hb : b ∈ l) (acc : Box) :
    boxSub b (l.foldl boxUnion acc) := by
  induction l generalizing acc with
  | nil => cases hb
  | cons x t ih =>
      rcases List.mem_cons.mp hb with h | h
      · subst h
        exact boxSub_trans (boxSub_boxUnion_right acc b) (boxSub_foldl t _)
      · exact ih h _

theorem boxSub_unionBoxes {l : List Box} {b : Box} (hb : b ∈ l) :
    boxSub b (unionBoxes l) := by
  match l with
  | [] => cases hb
  | x :: t =>
      rcases List.mem_cons.mp hb with h | h
      · subst h
        exact boxSub_foldl t b
      · exact boxSub_foldl_mem h x

theorem intersects_true_iff {a b : Box} :
    intersects a b = true ↔
      b.minX ≤ a.maxX ∧ a.minX ≤ b.maxX ∧ b.minY ≤ a.maxY ∧ a.minY ≤ b.maxY := by
  simp [intersects, not_lt, and_assoc]

/-- Monotonicity of the overlap test: if a box contained in `p` overlaps the
query, then so does `p`. -/
theorem intersects_of_boxSub {c p q : Box} (hsub : boxSub c p)
    (hc : intersects c q = true) : intersects p q = true := by
  obtain ⟨h1, h2, h3, h4⟩ := hsub
  rw [intersects_true_iff] at hc ⊢
  obtain ⟨c1, c2, c3, c4⟩ := hc
  exact ⟨le_trans c1 h3, le_trans h1 c2, le_trans c3 h4, le_trans h2 c4⟩

/-! ## Sort keys: Hilbert codes and STR ordering (spec §4.2) -/

/-- Modelled from the spec (§4.2): the quadrant rotation/reflection of the
classic recursive Hilbert-curve transform. -/
def hilbertRot (n x y rx ry : ℕ) : ℕ × ℕ :=
  if ry = 0 then
    if rx = 1 then (n - 1 - y, n - 1 - x) else (y, x)
  else (x, y)

/-- Modelled from the spec (§4.2): one descent of the classic Hilbert
transform per grid bit, accumulating the distance `d` along the curve. -/
def hilbertDAux (n : ℕ) : ℕ → ℕ → ℕ → ℕ → ℕ
  | 0, _, _, d => d
  | k + 1, x, y, d =>
    let s := 2 ^ k
    let rx := if x &&& s ≠ 0 then 1 else 0
    let ry := if y &&& s ≠ 0 then 1 else 0
    let p := hilbertRot n x y rx ry
    hilbertDAux n k p.1 p.2 (d + s * s * ((3 * rx) ^^^ ry))

/-- Modelled from the spec (§4.2): the Hilbert-curve index of a cell of the
`2^order × 2^order` grid. -/
def hilbertD (order x y : ℕ) : ℕ :=
  hilbertDAux (2 ^ order) order x y 0

/-- Modelled from the spec (§4.2): `hilbertMax`, the largest coordinate of
the 16-bit quantization grid. -/
def hilbertMax : ℕ := 2 ^ 16 - 1

/-- Quantize one centroid coordinate against the global extent
(`⌊hilbertMax * (c - lo) / width⌋`); a degenerate extent (zero width) maps
everything to 0 (rational division by zero is zero). -/
def quantize (lo width c : ℚ) : ℕ :=
  (Rat.floor ((hilbertMax : ℚ) * (c - lo) / width)).toNat

/-- Modelled from the spec (§4.2): the Hilbert code of a box — its centroid
is mapped into the 2^16 × 2^16 grid by normalizing against the global
extent `ext`, then encoded via the classic Hilbert transform. -/
def hilbertValue (ext : Box) (b : Box) : ℕ :=
  hilbertD 16 (quantize ext.minX (ext.maxX - ext.minX) ((b.minX + b.maxX) / 2))
    (quantize ext.minY (ext.maxY - ext.minY) ((b.minY + b.maxY) / 2))

/-! ## Chunking into fixed-fanout groups -/

/-- Fuel-driven worker for `chunkList` (structural recursion so that the
kernel can evaluate concrete trees). -/
def chunkListAux (M : ℕ) : ℕ → List α → List (List α)
  | 0, _ => []
  | fuel + 1, l => if l.isEmpty then [] else l.take M :: chunkListAux M fuel (l.drop M)

/-- Modelled from the spec (§4.3 step 4): split a list into consecutive
groups of `M` (the last group may be short). -/
def chunkList (M : ℕ) (l : List α) : List (List α) :=
  chunkListAux M l.length l

/-- An item carries its original input position together with its box; a
node entry likewise pairs the `indices` value with the node box (§3). -/
abbrev Entry := ℕ × Box

/-- Modelled from the spec (§4.2): the sort methods accepted by `finish`. -/
inductive SortMethod where
  | hilbert
  | str
deriving DecidableEq, Repr

/-- Centroid-x comparison used by STR (§4.2). -/
def centroidXLe (a b : Entry) : Prop :=
  (a.2.minX + a.2.maxX) / 2 ≤ (b.2.minX + b.2.maxX) / 2

/-- Centroid-y comparison used by STR (§4.2). -/
def centroidYLe (a b : Entry) : Prop :=
  (a.2.minY + a.2.maxY) / 2 ≤ (b.2.minY + b.2.maxY) / 2

instance : DecidableRel centroidXLe := fun a b =>
  inferInstanceAs (Decidable (_ ≤ _))

instance : DecidableRel centroidYLe := fun a b =>
  inferInstanceAs (Decidable (_ ≤ _))

/-- `⌈√n⌉` on naturals, for the STR slab computation. -/
def ceilSqrt (n : ℕ) : ℕ :=
  if Nat.sqrt n * Nat.sqrt n = n then Nat.sqrt n else Nat.sqrt n + 1

/-- Modelled from the spec (§4.2): the global extent is computed from the
inputs themselves. -/
def globalExtent (items : List Entry) : Box :=
  unionBoxes (items.map (·.2))

/-- Modelled from the spec (§4.2): Hilbert bulk-load order — a stable sort
by Hilbert code of the quantized centroid (ties break by original index,
which stable insertion keeps in input order). -/
def hilbertSort (items : List Entry) : List Entry :=
  let ext := globalExtent items
  items.insertionSort fun a b => hilbertValue ext a.2 ≤ hilbertValue ext b.2

/-- Modelled from the spec (§4.2): STR ordering — sort by centroid-x, split
into vertical slabs of `⌈√(N·M)⌉` items, sort each slab by centroid-y. -/
def strSort (M : ℕ) (items : List Entry) : List Entry :=
  let byX := items.insertionSort centroidXLe
  ((chunkList (ceilSqrt (items.length * M)) byX).map
    (·.insertionSort centroidYLe)).flatten

/-- Modelled from the spec (§4.3 steps 2–3): compute sort keys and stably
permute the items. -/
def sortItems (method : SortMethod) (M : ℕ) (items : List Entry) : List Entry :=
  match method with
  | .hilbert => hilbertSort items
  | .str => strSort M items

/-! ## Bulk loader (spec §4.3) -/

/-- Modelled from the spec (§4.3 step 5): build one parent level; `pos` is
the position of the next parent's first child in the previous level. -/
def buildParentAux (M : ℕ) : ℕ → ℕ → List Entry → List Entry
  | _, 0, _ => []
  | pos, fuel + 1, l =>
    if l.isEmpty then []
    else (pos, unionBoxes ((l.take M).map (·.2))) ::
      buildParentAux M (pos + M) fuel (l.drop M)

/-- Modelled from the spec (§4.3 steps 4–5): pack a level's nodes
left-to-right in groups of `M`; each parent's box is the union of its
up-to-`M` children and its `indices` entry is the position of its first
child. -/
def buildParentLevel (M : ℕ) (lvl : List Entry) : List Entry :=
  buildParentAux M 0 lvl.length lvl

/-- Modelled from the spec (§4.3 step 6): iteratively build parent levels
until a level contains one node (the root); `fuel` only drives the
recursion and `lvl.length` always suffices. -/
def buildGoAux (M : ℕ) : ℕ → List Entry → List (List Entry)
  | 0, lvl => [buildParentLevel M lvl]
  | fuel + 1, lvl =>
    let p := buildParentLevel M lvl
    if 1 < p.length ∧ p.length < lvl.length then p :: buildGoAux M fuel p
    else [p]

/-- Modelled from the spec (§4.3): all levels of the tree, leaf level
first. -/
def buildLevels (M : ℕ) (lvl0 : List Entry) : List (List Entry) :=
  lvl0 :: buildGoAux M lvl0.length lvl0

/-- Modelled from the spec (§3): the immutable tree — `num_items`, the node
size `M`, and the per-level `(indices, box)` arrays, leaf level first. -/
structure Rtree where
  numItems : ℕ
  nodeSize : ℕ
  levels : List (List Entry)
deriving DecidableEq, Repr

/-- Modelled from the spec (§4.3, §6.2): `RTreeBuilder(N, M).add(...).finish
(method)` — sort the items, remember the permutation at the leaf level and
stack parent levels on top.  `N = 0` produces the empty tree with one
sentinel root of empty extent (§4.3 edge cases). -/
def buildRTree (M : ℕ) (method : SortMethod) (boxes : List Box) : Rtree :=
  if boxes.isEmpty then
    { numItems := 0, nodeSize := M, levels := [[], [(0, ⟨0, 0, 0, 0⟩)]] }
  else
    { numItems := boxes.length
      nodeSize := M
      levels := buildLevels M (sortItems method M boxes.enum) }

/-! ## Box search (spec §4.5) -/

/-- The children of a node entry: the up-to-`M` nodes of the previous level
starting at the stored first-child position (§3 invariant 3). -/
def childSlice (M : ℕ) (lvl : List Entry) (e : Entry) : List Entry :=
  (lvl.drop e.1).take M

/-- Modelled from the spec (§4.5): the level-by-level descent of the box
search — keep the candidate nodes whose box intersects `Q`, expand them to
their children, and at the leaf level emit the permuted original indices.
(The traversal is modelled level-synchronously; it visits exactly the nodes
the stack-driven traversal visits, so the emitted multiset is the same.) -/
def searchDown (M : ℕ) (q : Box) : List (List Entry) → List Entry → List ℕ
  | [], cands => (cands.filter fun e => intersects e.2 q).map (·.1)
  | lvl :: lower, cands =>
    searchDown M q lower
      ((cands.filter fun e => intersects e.2 q).flatMap (childSlice M lvl))

/-- Modelled from the spec (§4.5): box search — start at the root, scan its
children, and descend through the levels pruning by box overlap. -/
def Rtree.search (t : Rtree) (q : Box) : List ℕ :=
  match t.levels.reverse with
  | [] => []
  | [lvl0] => ((lvl0.filter fun e => intersects e.2 q).map (·.1))
  | (root :: _) :: lvl :: lower =>
    searchDown t.nodeSize q lower (childSlice t.nodeSize lvl root)
  | [] :: _ :: _ => []

/-- The naive O(N) scan the spec compares the tree search against (§8):
indices of all input boxes overlapping the query. -/
def naiveSearch (boxes : List Box) (q : Box) : List ℕ :=
  (boxes.enum.filter fun e => intersects e.2 q).map (·.1)

/-! ## Partition view (spec §4.6) and level views -/

/-- Modelled from the spec (§4.6): the `indices` column — original input
positions in leaf-packing order. -/
def Rtree.partitionIndices (t : Rtree) : List ℕ :=
  (t.levels.headD []).map (·.1)

/-- Modelled from the spec (§4.6): the `partition_id` column — the index of
the leaf (group of `M` consecutive packed items) containing each item. -/
def Rtree.partitionIds (t : Rtree) : List ℕ :=
  (List.range t.numItems).map (· / t.nodeSize)

/-- Modelled from the spec (§4.6, §6.2): `partitions()` as the two-column
`(indices, partition_id)` view. -/
def Rtree.partitions (t : Rtree) : List ℕ × List ℕ :=
  (t.partitionIndices, t.partitionIds)

/-- Modelled from the spec (§6.2): `boxes_at_level(level)` — the read-only
box slice of one level. -/
def boxesAtLevel (t : Rtree) (lvl : ℕ) : List Box :=
  (t.levels.getD lvl []).map (·.2)

/-! ## Serialization (spec §4.4, §6.1, §4.7) -/

/-- Modelled from the spec (§7): the error kinds of buffer validation that
the claims exercise. -/
inductive FBError where
  | notFlatbush
  | truncated
deriving DecidableEq, Repr

/-- The boundary message of the `NotFlatbush` error (the repository's test
matches on this text). -/
def FBError.message : FBError → String
  | .notFlatbush => "Data not in Flatbush format"
  | .truncated => "Data buffer is truncated"

/-- Little-endian bytes of a `u16` value. -/
def u16Bytes (n : ℕ) : List ℕ :=
  [n % 256, n / 256 % 256]

/-- Little-endian bytes of a `u32` value. -/
def u32Bytes (n : ℕ) : List ℕ :=
  [n % 256, n / 256 % 256, n / 65536 % 256, n / 16777216 % 256]

/-- Modelled from the spec (§6.1): the serialized tree.  The 12 header
bytes are modelled bit-exactly; the box payload keeps its exact coordinate
values (a pure memcpy in the engine) and the `indices` payload its integer
values, in the same leaf-level-first node order as the header mandates. -/
structure FlatBuffer where
  headerBytes : List ℕ
  boxData : List ℚ
  indexData : List ℕ
deriving DecidableEq, Repr

/-- The four serialized coordinates of one node box (§6.1 node boxes). -/
def encodeBox (b : Box) : List ℚ :=
  [b.minX, b.minY, b.maxX, b.maxY]

/-- Regroup the coordinate payload into node boxes, four coordinates per
node (§6.1). -/
def chunkBoxes : List ℚ → List Box
  | a :: b :: c :: d :: rest => ⟨a, b, c, d⟩ :: chunkBoxes rest
  | _ => []

/-- Modelled from the spec (§4.4, §6.1): `to_buffer` — magic byte `0xFB`,
version nibble 3 and coordinate-type code 0 (f64) in byte 1, `node_size` as
little-endian u16, `num_items` as little-endian u32, reserved padding, then
the node boxes (leaf level first) and the `indices` array. -/
def Rtree.toBuffer (t : Rtree) : FlatBuffer :=
  { headerBytes := 0xFB :: 0x30 :: (u16Bytes t.nodeSize ++ u32Bytes t.numItems
      ++ [0, 0, 0, 0])
    boxData := t.levels.flatten.flatMap fun e => encodeBox e.2
    indexData := t.levels.flatten.map (·.1) }

/-- Modelled from the spec (§6.1, §4.3 step 7): re-derive the per-level
node counts from `(num_items, node_size)` by iterating the fanout closure
(`n = 0` yields the empty tree's sentinel-root layout). -/
def levelSizesAux (M : ℕ) : ℕ → ℕ → List ℕ
  | 0, n => [(n + M - 1) / M]
  | fuel + 1, n =>
    let p := (n + M - 1) / M
    if 1 < p ∧ p < n then p :: levelSizesAux M fuel p else [p]

/-- Modelled from the spec (§6.1): the level sizes, leaf level first. -/
def levelSizes (M n : ℕ) : List ℕ :=
  if n = 0 then [0, 1] else n :: levelSizesAux M n n

/-- Split a flat node list back into levels of the given sizes. -/
def chunkByLengths : List ℕ → List α → List (List α)
  | [], _ => []
  | n :: ns, l => l.take n :: chunkByLengths ns (l.drop n)

/-- Modelled from the spec (§4.7, §4.4, §7): `from_buffer` — fail with the
distinct `NotFlatbush` error on a buffer under 12 bytes, a wrong magic byte
or an unknown version nibble; validate the payload lengths against the
re-derived level sizes (`Truncated` otherwise); then rebuild the tree
without further sorting. -/
def fromBuffer (b : FlatBuffer) : Except FBError Rtree :=
  if b.headerBytes.length < 12 then .error .notFlatbush
  else
    match b.headerBytes with
    | magic :: vt :: rest =>
      if magic ≠ 0xFB then .error .notFlatbush
      else if vt / 16 ≠ 3 then .error .notFlatbush
      else
        let nodeSize := rest.getD 0 0 + 256 * rest.getD 1 0
        let numItems := rest.getD 2 0 + 256 * rest.getD 3 0
          + 65536 * rest.getD 4 0 + 16777216 * rest.getD 5 0
        let sizes := levelSizes nodeSize numItems
        let numNodes := sizes.sum
        if b.boxData.length ≠ 4 * numNodes then .error .truncated
        else if b.indexData.length ≠ numNodes then .error .truncated
        else .ok { numItems := numItems, nodeSize := nodeSize,
                   levels := chunkByLengths sizes
                     (b.indexData.zip (chunkBoxes b.boxData)) }
    | _ => .error .notFlatbush

/-- The 11-byte garbage input `b"Hello world"` of scenario S4 (ASCII). -/
def helloWorldBuffer : FlatBuffer :=
  { headerBytes := [72, 101, 108, 108, 111, 32, 119, 111, 114, 108, 100]
    boxData := []
    indexData := [] }

/-! ## KD-tree (spec §4.5 KD range, §6.2) -/

/-- A KD point: original index with x and y coordinates. -/
abbrev KDPoint := ℕ × ℚ × ℚ

/-- The coordinate of a point on the given axis (`true` = x). -/
def axisCoord (ax : Bool) (p : KDPoint) : ℚ :=
  if ax then p.2.1 else p.2.2

/-- Modelled from the spec (§2 C5, §4.5): the packed KD-tree — alternating
axes, median split, small point runs stored as leaves. -/
inductive KDNode where
  | leaf (pts : List KDPoint)
  | node (median : KDPoint) (axisX : Bool) (left right : KDNode)
deriving Repr

/-- Modelled from the spec (§4.5): KD bulk load by axis-alternating median
split (fuel-driven structural recursion; the point count always suffices). -/
def kdBuildAux (nodeSize : ℕ) : ℕ → Bool → List KDPoint → KDNode
  | 0, _, pts => .leaf pts
  | fuel + 1, ax, pts =>
    if pts.length ≤ nodeSize then .leaf pts
    else
      let sorted := pts.insertionSort fun a b => axisCoord ax a ≤ axisCoord ax b
      let m := sorted.length / 2
      match sorted.drop m with
      | [] => .leaf pts
      | med :: right =>
        .node med ax (kdBuildAux nodeSize fuel (!ax) (sorted.take m))
          (kdBuildAux nodeSize fuel (!ax) right)

/-- Membership of a point in the query rectangle. -/
def kdInBox (minX minY maxX maxY : ℚ) (p : KDPoint) : Bool :=
  decide (minX ≤ p.2.1) && decide (p.2.1 ≤ maxX) &&
    decide (minY ≤ p.2.2) && decide (p.2.2 ≤ maxY)

/-- Modelled from the spec (§4.5 KD range): recursive descent with
axis-alternating split and per-axis pruning. -/
def kdRange (minX minY maxX maxY : ℚ) : KDNode → List ℕ
  | .leaf pts => (pts.filter (kdInBox minX minY maxX maxY)).map (·.1)
  | .node med ax l r =>
    (if (if ax then minX else minY) ≤ axisCoord ax med then
      kdRange minX minY maxX maxY l else []) ++
    (if kdInBox minX minY maxX maxY med then [med.1] else []) ++
    (if axisCoord ax med ≤ (if ax then maxX else maxY) then
      kdRange minX minY maxX maxY r else [])

/-- Modelled from the spec (§6.2): `KDTreeBuilder(N).add(x, y).finish()`. -/
def buildKDTree (nodeSize : ℕ) (xs ys : List ℚ) : KDNode :=
  kdBuildAux nodeSize xs.length true
    ((xs.zip ys).enum.map fun p => (p.1, p.2.1, p.2.2))

/-! ## The `StrEnum` helpers of `src/python/python/enums.py` -/

/-- A materialized Python value handed to `StrEnum.__new__`.  (`auto()`
markers are resolved to the generated string by the `Enum` machinery before
`__new__` runs, so the value domain here holds materialized values; the
defensive `auto` arm of the source's `isinstance(value, (str, auto))` check
is therefore not representable.) -/
inductive PyValue where
  | pyStr (s : String)
  | pyInt (n : Int)
  | pyNone
deriving DecidableEq, Repr

/-- The `isinstance(value, str)` test. -/
def PyValue.isStr : PyValue → Bool
  | .pyStr _ => true
  | _ => false

/-- The Python exception kinds the claims exercise. -/
inductive PyExc where
  | typeError
deriving DecidableEq, Repr

/-- `StrEnum.__new__` from `enums.py`: values of StrEnums must be strings,
otherwise `TypeError`. -/
def strEnumNew (v : PyValue) : Except PyExc PyValue :=
  if v.isStr then .ok v else .error .typeError

/-- `str.lower()` for the ASCII member names, character by character. -/
def pyLower (s : String) : String :=
  String.mk (s.data.map Char.toLower)

/-- `StrEnum._generate_next_value_` from `enums.py`:
`return name.lower()`. -/
def generateNextValue (name : String) : String :=
  pyLower name

/-- The members of `RTreeMethod` in `enums.py`. -/
inductive PyRTreeMethod where
  | Hilbert
  | STR
deriving DecidableEq, Repr

/-- The Python member names. -/
def PyRTreeMethod.memberName : PyRTreeMethod → String
  | .Hilbert => "Hilbert"
  | .STR => "STR"

/-- The member values: both members are assigned `auto()`, which the enum
machinery resolves through `_generate_next_value_`. -/
def PyRTreeMethod.value (m : PyRTreeMethod) : String :=
  generateNextValue m.memberName

/-- `StrEnum.__str__` from `enums.py`: `str(self.value)` — the value is
already a string. -/
def PyRTreeMethod.strOf (m : PyRTreeMethod) : String :=
  m.value

/-! ## Chunking lemmas -/

/-- The union invariant (§3 invariant 2) along a top-down stack of levels:
each entry of a level covers the boxes of its child slice in the level
below. -/
def ChainOK (M : ℕ) : List Entry → List (List Entry) → Prop
  | _, [] => True
  | top, lvl :: lower =>
    (∀ e ∈ top, ∀ c ∈ childSlice M lvl e, boxSub c.2 e.2) ∧ ChainOK M lvl lower

/-- The leaf entries reachable from a candidate set by repeatedly expanding
every node to its child slice, level by level. -/
def leavesUnder (M : ℕ) : List (List Entry) → List Entry → List Entry
  | [], cands => cands
  | lvl :: lower, cands => leavesUnder M lower (cands.flatMap (childSlice M lvl))

/-- The boxes used by the repository's concrete R-tree scenarios:
`min_x = min_y = [0..4]`, `max_x = max_y = [5..9]`. -/
def demoBoxes : List Box :=
  [⟨0, 0, 5, 5⟩, ⟨1, 1, 6, 6⟩, ⟨2, 2, 7, 7⟩, ⟨3, 3, 8, 8⟩, ⟨4, 4, 9, 9⟩]

/-- The same boxes presented in reverse input order. -/
def revBoxes : List Box :=
  [⟨4, 4, 9, 9⟩, ⟨3, 3, 8, 8⟩, ⟨2, 2, 7, 7⟩, ⟨1, 1, 6, 6⟩, ⟨0, 0, 5, 5⟩]

/-- The query box `(0.5, 0.5, 1.5, 1.5)` of scenarios S1/S2. -/
def demoQuery : Box := ⟨mkRat 1 2, mkRat 1 2, mkRat 3 2, mkRat 3 2⟩

/-! ## Helper lemmas -/

theorem chunkListAux_nil (M : ℕ) (fuel : ℕ) :
    chunkListAux (α := α) M fuel [] = [] := by
  cases fuel <;> simp [chunkListAux]

theorem chunkListAux_flatten (M : ℕ) (hM : 1 ≤ M) :
    ∀ (fuel : ℕ) (l : List α), l.length ≤ fuel →
      (chunkListAux M fuel l).flatten = l := by
  intro fuel
  induction fuel with
  | zero =>
      intro l hl
      have : l = [] := List.length_eq_zero.mp (Nat.le_zero.mp hl)
      simp [this, chunkListAux]
  | succ fuel ih =>
      intro l hl
      by_cases h : l = []
      · simp [h, chunkListAux]
      · have hne : l.isEmpty = false := by simpa [List.isEmpty_iff] using h
        have hlen : (l.drop M).length ≤ fuel := by
          have h1 : 1 ≤ l.length := by
            cases l with
            | nil => exact absurd rfl h
            | cons a t => simp
          simp only [List.length_drop]
          omega
        simp [chunkListAux, hne, ih (l.drop M) hlen]

theorem chunkList_flatten (M : ℕ) (hM : 1 ≤ M) (l : List α) :
    (chunkList M l).flatten = l :=
  chunkListAux_flatten M hM l.length l le_rfl

/-! ## Parent-level lemmas (spec §4.3 invariants) -/

theorem buildParentAux_flatMap_childSlice (M : ℕ) (hM : 1 ≤ M)
    (big : List Entry) :
    ∀ (fuel pos : ℕ) (rest : List Entry), big.drop pos = rest →
      rest.length ≤ fuel →
      (buildParentAux M pos fuel rest).flatMap (childSlice M big) = rest := by
  intro fuel
  induction fuel with
  | zero =>
      intro pos rest _ hlen
      have : rest = [] := List.length_eq_zero.mp (Nat.le_zero.mp hlen)
      simp [this, buildParentAux]
  | succ fuel ih =>
      intro pos rest hdrop hlen
      by_cases h : rest = []
      · simp [h, buildParentAux]
      · have hne : rest.isEmpty = false := by simpa [List.isEmpty_iff] using h
        have h1 : 1 ≤ rest.length := by
          cases rest with
          | nil => exact absurd rfl h
          | cons a t => simp
        have hdrop' : big.drop (pos + M) = rest.drop M := by
          rw [← hdrop, List.drop_drop]
        have hlen' : (rest.drop M).length ≤ fuel := by
          simp only [List.length_drop]; omega
        have hslice : childSlice M big (pos, unionBoxes ((rest.take M).map (·.2)))
            = rest.take M := by
          simp [childSlice, hdrop]
        simp only [buildParentAux, hne, Bool.false_eq_true, if_false,
          List.flatMap_cons, ih (pos + M) (rest.drop M) hdrop' hlen', hslice]
        exact List.take_append_drop M rest

theorem buildParentAux_cover (M : ℕ) (big : List Entry) :
    ∀ (fuel pos : ℕ) (rest : List Entry), big.drop pos = rest →
      ∀ e ∈ buildParentAux M pos fuel rest,
        ∀ c ∈ childSlice M big e, boxSub c.2 e.2 := by
  intro fuel
  induction fuel with
  | zero => intro pos rest _ e he; simp [buildParentAux] at he
  | succ fuel ih =>
      intro pos rest hdrop e he c hc
      by_cases h : rest = []
      · simp [h, buildParentAux] at he
      · have hne : rest.isEmpty = false := by simpa [List.isEmpty_iff] using h
        simp only [buildParentAux, hne, Bool.false_eq_true, if_false,
          List.mem_cons] at he
        rcases he with he | he
        · subst he
          have hslice : childSlice M big (pos, unionBoxes ((rest.take M).map (·.2)))
              = rest.take M := by simp [childSlice, hdrop]
          rw [hslice] at hc
          exact boxSub_unionBoxes (List.mem_map_of_mem _ hc)
        · have hdrop' : big.drop (pos + M) = rest.drop M := by
            rw [← hdrop, List.drop_drop]
          exact ih (pos + M) (rest.drop M) hdrop' e he c hc

theorem childSlice_subset (M : ℕ) (lvl : List Entry) (e : Entry) :
    ∀ c ∈ childSlice M lvl e, c ∈ lvl := fun c hc =>
  ((List.take_sublist _ _).trans (List.drop_sublist _ _)).subset hc

/-- Arithmetic step of the fanout closure: one `⌈·/M⌉` iteration. -/
theorem ceil_div_step (M L : ℕ) (hM : 1 ≤ M) (hL : 1 ≤ L) :
    (L + M - 1) / M = (L - M + M - 1) / M + 1 := by
  rcases le_or_lt M L with h | h
  · have e1 : L - M + M - 1 = L - 1 := by omega
    have e2 : L + M - 1 = (L - 1) + M := by omega
    rw [e1, e2, Nat.add_div_right _ (by omega)]
  · have e1 : L - M = 0 := by omega
    have e2 : L + M - 1 = (L - 1) + M := by omega
    rw [e1, e2, Nat.add_div_right _ (by omega), Nat.div_eq_of_lt (by omega),
      Nat.div_eq_of_lt (by omega)]

theorem buildParentAux_length (M : ℕ) (hM : 1 ≤ M) :
    ∀ (fuel pos : ℕ) (rest : List Entry), rest.length ≤ fuel →
      (buildParentAux M pos fuel rest).length = (rest.length + M - 1) / M := by
  intro fuel
  induction fuel with
  | zero =>
      intro pos rest hlen
      have hr : rest = [] := List.length_eq_zero.mp (Nat.le_zero.mp hlen)
      have hd : (M - 1) / M = 0 := Nat.div_eq_of_lt (by omega)
      simp [hr, buildParentAux, hd]
  | succ fuel ih =>
      intro pos rest hlen
      by_cases h : rest = []
      · have hd : (M - 1) / M = 0 := Nat.div_eq_of_lt (by omega)
        simp [h, buildParentAux, hd]
      · have hne : rest.isEmpty = false := by simpa [List.isEmpty_iff] using h
        have h1 : 1 ≤ rest.length := by
          cases rest with
          | nil => exact absurd rfl h
          | cons a t => simp
        have hlen' : (rest.drop M).length ≤ fuel := by
          simp only [List.length_drop]; omega
        simp only [buildParentAux, hne, Bool.false_eq_true, if_false,
          List.length_cons, ih (pos + M) (rest.drop M) hlen',
          List.length_drop]
        exact (ceil_div_step M rest.length hM h1).symm

theorem buildParentLevel_length (M : ℕ) (hM : 1 ≤ M) (lvl : List Entry) :
    (buildParentLevel M lvl).length = (lvl.length + M - 1) / M :=
  buildParentAux_length M hM lvl.length 0 lvl le_rfl

theorem buildParentLevel_flatMap (M : ℕ) (hM : 1 ≤ M) (lvl : List Entry) :
    (buildParentLevel M lvl).flatMap (childSlice M lvl) = lvl :=
  buildParentAux_flatMap_childSlice M hM lvl lvl.length 0 lvl (by simp) le_rfl

theorem buildParentLevel_cover (M : ℕ) (lvl : List Entry) :
    ∀ e ∈ buildParentLevel M lvl, ∀ c ∈ childSlice M lvl e, boxSub c.2 e.2 :=
  buildParentAux_cover M lvl lvl.length 0 lvl (by simp)

/-! ## The union invariant down the levels, and search correctness -/

theorem leavesUnder_nil (M : ℕ) (lowers : List (List Entry)) :
    leavesUnder M lowers [] = [] := by
  induction lowers with
  | nil => rfl
  | cons lvl lower ih => simp [leavesUnder, ih]

theorem leavesUnder_append (M : ℕ) (lowers : List (List Entry)) :
    ∀ a b : List Entry,
      leavesUnder M lowers (a ++ b) = leavesUnder M lowers a ++ leavesUnder M lowers b := by
  induction lowers with
  | nil => intro a b; rfl
  | cons lvl lower ih =>
      intro a b
      simp [leavesUnder, List.flatMap_append, ih]

theorem leavesUnder_cons (M : ℕ) (lowers : List (List Entry)) (e : Entry)
    (rest : List Entry) :
    leavesUnder M lowers (e :: rest)
      = leavesUnder M lowers [e] ++ leavesUnder M lowers rest := by
  have := leavesUnder_append M lowers [e] rest
  simpa using this

theorem leavesUnder_compose (M : ℕ) (ls₁ : List (List Entry)) :
    ∀ (ls₂ : List (List Entry)) (cands : List Entry),
      leavesUnder M (ls₁ ++ ls₂) cands = leavesUnder M ls₂ (leavesUnder M ls₁ cands) := by
  induction ls₁ with
  | nil => intro ls₂ cands; rfl
  | cons lvl lower ih => intro ls₂ cands; simp [leavesUnder, ih]

theorem mem_leavesUnder_decomp (M : ℕ) (lowers : List (List Entry)) :
    ∀ (cands : List Entry) (x : Entry), x ∈ leavesUnder M lowers cands →
      ∃ e ∈ cands, x ∈ leavesUnder M lowers [e] := by
  intro cands
  induction cands with
  | nil => intro x hx; rw [leavesUnder_nil] at hx; cases hx
  | cons e rest ih =>
      intro x hx
      rw [leavesUnder_cons] at hx
      rcases List.mem_append.mp hx with h | h
      · exact ⟨e, List.mem_cons_self e rest, h⟩
      · obtain ⟨e', he', hx'⟩ := ih x h
        exact ⟨e', List.mem_cons_of_mem e he', hx'⟩

/-- Every leaf reachable from an entry lies inside that entry's box,
provided the union invariant holds down the stack. -/
theorem leaves_boxSub (M : ℕ) :
    ∀ (lowers : List (List Entry)) (top : List Entry), ChainOK M top lowers →
      ∀ e ∈ top, ∀ x ∈ leavesUnder M lowers [e], boxSub x.2 e.2 := by
  intro lowers
  induction lowers with
  | nil =>
      intro top _ e _ x hx
      simp [leavesUnder] at hx
      subst hx
      exact boxSub_refl _
  | cons lvl lower ih =>
      intro top hch e he x hx
      obtain ⟨hcover, hch'⟩ := hch
      simp only [leavesUnder, List.flatMap_cons, List.flatMap_nil,
        List.append_nil] at hx
      obtain ⟨c, hc, hx'⟩ := mem_leavesUnder_decomp M lower _ x hx
      exact boxSub_trans (ih lvl hch' c (childSlice_subset M lvl e c hc) x hx')
        (hcover e he c hc)

/-- Dropping the candidates that do not overlap the query does not change
the overlapping leaves below. -/
theorem filter_leavesUnder_filter (M : ℕ) (q : Box) (lowers : List (List Entry))
    (top : List Entry) (hch : ChainOK M top lowers) :
    ∀ cands : List Entry, (∀ e ∈ cands, e ∈ top) →
      (leavesUnder M lowers (cands.filter fun e => intersects e.2 q)).filter
          (fun e => intersects e.2 q)
        = (leavesUnder M lowers cands).filter (fun e => intersects e.2 q) := by
  intro cands
  induction cands with
  | nil => intro _; simp
  | cons e rest ih =>
      intro hsub
      have hrest : ∀ x ∈ rest, x ∈ top := fun x hx =>
        hsub x (List.mem_cons_of_mem e hx)
      by_cases h : intersects e.2 q = true
      · rw [show (e :: rest).filter (fun x => intersects x.2 q)
              = e :: rest.filter (fun x => intersects x.2 q) by
            simp [List.filter_cons, h],
          leavesUnder_cons, leavesUnder_cons, List.filter_append,
          List.filter_append, ih hrest]
        rw [leavesUnder_cons M lowers e rest, List.filter_append, leavesUnder_nil]
        simp
      · have h' : intersects e.2 q = false := Bool.eq_false_iff.mpr h
        rw [show (e :: rest).filter (fun x => intersects x.2 q)
              = rest.filter (fun x => intersects x.2 q) by
            simp [List.filter_cons, h'],
          leavesUnder_cons, List.filter_append, ih hrest]
        have hnil : (leavesUnder M lowers [e]).filter (fun x => intersects x.2 q)
            = [] := by
          rw [List.filter_eq_nil_iff]
          intro x hx hint
          exact h (intersects_of_boxSub
            (leaves_boxSub M lowers top hch e (hsub e (List.mem_cons_self e rest)) x hx)
            hint)
        rw [hnil, List.nil_append]

/-- The level-synchronous search emits exactly the reachable leaves
overlapping the query, provided the union invariant holds. -/
theorem searchDown_eq (M : ℕ) (q : Box) :
    ∀ (lowers : List (List Entry)) (top cands : List Entry),
      ChainOK M top lowers → (∀ e ∈ cands, e ∈ top) →
      searchDown M q lowers cands
        = ((leavesUnder M lowers cands).filter fun e => intersects e.2 q).map (·.1) := by
  intro lowers
  induction lowers with
  | nil => intro top cands _ _; rfl
  | cons lvl lower ih =>
      intro top cands hch hsub
      obtain ⟨hcover, hch'⟩ := hch
      have hsub' : ∀ e ∈ (cands.filter fun e => intersects e.2 q).flatMap
          (childSlice M lvl), e ∈ lvl := by
        intro e he
        obtain ⟨s, _, he'⟩ := List.mem_flatMap.mp he
        exact childSlice_subset M lvl s e he'
      calc searchDown M q (lvl :: lower) cands
          = searchDown M q lower
              ((cands.filter fun e => intersects e.2 q).flatMap (childSlice M lvl)) := rfl
        _ = ((leavesUnder M lower
              ((cands.filter fun e => intersects e.2 q).flatMap (childSlice M lvl))).filter
                (fun e => intersects e.2 q)).map (·.1) := ih lvl _ hch' hsub'
        _ = ((leavesUnder M (lvl :: lower)
              (cands.filter fun e => intersects e.2 q)).filter
                (fun e => intersects e.2 q)).map (·.1) := rfl
        _ = ((leavesUnder M (lvl :: lower) cands).filter
                (fun e => intersects e.2 q)).map (·.1) := by
              rw [filter_leavesUnder_filter M q (lvl :: lower) top ⟨hcover, hch'⟩ cands hsub]

/-- Extending the union-invariant stack by one more level at the bottom. -/
theorem ChainOK_append (M : ℕ) :
    ∀ (lowers : List (List Entry)) (top newlvl last : List Entry),
      ChainOK M top lowers → (top :: lowers).getLast? = some last →
      (∀ e ∈ last, ∀ c ∈ childSlice M newlvl e, boxSub c.2 e.2) →
      ChainOK M top (lowers ++ [newlvl]) := by
  intro lowers
  induction lowers with
  | nil =>
      intro top newlvl last _ hlast hcov
      have : top = last := by simpa using hlast
      subst this
      exact ⟨hcov, trivial⟩
  | cons lvl lower ih =>
      intro top newlvl last hch hlast hcov
      obtain ⟨hcover, hch'⟩ := hch
      have hlast' : (lvl :: lower).getLast? = some last := by
        rwa [List.getLast?_cons_cons] at hlast
      exact ⟨hcover, ih lvl newlvl last hch' hlast' hcov⟩

/-- Structure of the level stack produced by the bulk loader: a singleton
root whose `indices` entry is 0, the union invariant down the stack, the
root's child slice being the whole level below it, and the leaf level being
exactly the sorted items. -/
theorem buildGo_spec (M : ℕ) (hM : 2 ≤ M) :
    ∀ (fuel : ℕ) (lvl : List Entry), lvl ≠ [] → lvl.length ≤ fuel →
      ∃ (rootBox : Box) (topLvl : List Entry) (lowers : List (List Entry)),
        (buildGoAux M fuel lvl).reverse ++ [lvl]
            = [(0, rootBox)] :: topLvl :: lowers ∧
        ChainOK M topLvl lowers ∧
        childSlice M topLvl (0, rootBox) = topLvl ∧
        leavesUnder M lowers topLvl = lvl ∧
        (topLvl :: lowers).getLast? = some lvl := by
  intro fuel
  induction fuel with
  | zero =>
      intro lvl hne hlen
      exact absurd (List.length_eq_zero.mp (Nat.le_zero.mp hlen)) hne
  | succ fuel ih =>
      intro lvl hne hlen
      have hL : 1 ≤ lvl.length := by
        cases lvl with
        | nil => exact absurd rfl hne
        | cons a t => simp
      have hM1 : 1 ≤ M := by omega
      have plen : (buildParentLevel M lvl).length = (lvl.length + M - 1) / M :=
        buildParentLevel_length M hM1 lvl
      have p1 : 1 ≤ (buildParentLevel M lvl).length := by
        rw [plen]
        exact (Nat.one_le_div_iff (by omega)).mpr (by omega)
      by_cases hg : 1 < (buildParentLevel M lvl).length ∧
          (buildParentLevel M lvl).length < lvl.length
      · -- more than one parent: recurse on the parent level
        have hp_ne : buildParentLevel M lvl ≠ [] := by
          intro h
          rw [h] at p1
          simp at p1
        have hfuel : (buildParentLevel M lvl).length ≤ fuel := by omega
        obtain ⟨rootBox, topLvl, lowers, h1, h2, h3, h4, h5⟩ :=
          ih (buildParentLevel M lvl) hp_ne hfuel
        have hunfold : buildGoAux M (fuel + 1) lvl
            = buildParentLevel M lvl :: buildGoAux M fuel (buildParentLevel M lvl) := by
          simp [buildGoAux, hg]
        refine ⟨rootBox, topLvl, lowers ++ [lvl], ?_, ?_, h3, ?_, ?_⟩
        · rw [hunfold, List.reverse_cons, h1]
          simp
        · exact ChainOK_append M lowers topLvl lvl (buildParentLevel M lvl)
            h2 h5 (buildParentLevel_cover M lvl)
        · rw [leavesUnder_compose, h4]
          show leavesUnder M [] ((buildParentLevel M lvl).flatMap (childSlice M lvl)) = lvl
          rw [leavesUnder]
          exact buildParentLevel_flatMap M hM1 lvl
        · rw [← List.cons_append]
          exact List.getLast?_concat _
      · -- single parent: it is the root
        have hp1 : (buildParentLevel M lvl).length = 1 := by
          rcases Nat.lt_or_ge (buildParentLevel M lvl).length 2 with h | h
          · omega
          · exfalso
            apply hg
            constructor
            · omega
            · -- ⌈L/M⌉ < L whenever the parent has ≥ 2 nodes
              have hLM : M + 1 ≤ lvl.length := by
                rw [plen] at h
                have := (Nat.le_div_iff_mul_le (k := M) (by omega)).mp h
                omega
              rw [plen]
              rw [Nat.div_lt_iff_lt_mul (by omega)]
              have h2M : lvl.length + lvl.length ≤ lvl.length * M := by
                have := Nat.mul_le_mul_left lvl.length hM
                omega
              omega
        have hLM : lvl.length ≤ M := by
          rw [plen] at hp1
          have : (lvl.length + M - 1) / M < 2 := by omega
          rw [Nat.div_lt_iff_lt_mul (by omega)] at this
          omega
        -- expose the single parent entry: its first-child position is 0
        obtain ⟨L', hL'⟩ : ∃ L', lvl.length = L' + 1 :=
          ⟨lvl.length - 1, by omega⟩
        have hne' : lvl.isEmpty = false := by simpa [List.isEmpty_iff] using hne
        have hphead : buildParentLevel M lvl
            = (0, unionBoxes ((lvl.take M).map (·.2))) ::
                buildParentAux M (0 + M) L' (lvl.drop M) := by
          rw [buildParentLevel, hL']
          simp [buildParentAux, hne']
        have htail : buildParentAux M (0 + M) L' (lvl.drop M) = [] := by
          have := hp1
          rw [hphead] at this
          simpa using List.length_eq_zero.mp (by simpa using this)
        have hp : buildParentLevel M lvl
            = [(0, unionBoxes ((lvl.take M).map (·.2)))] := by
          rw [hphead, htail]
        have hunfold : buildGoAux M (fuel + 1) lvl = [buildParentLevel M lvl] := by
          simp [buildGoAux, hg]
        refine ⟨unionBoxes ((lvl.take M).map (·.2)), lvl, [], ?_, trivial, ?_, rfl, rfl⟩
        · rw [hunfold, hp]
          rfl
        · rw [childSlice]
          simp [List.take_of_length_le hLM]

/-! ## The sorting step is a permutation -/

theorem flatten_map_insertionSort_perm (r : Entry → Entry → Prop)
    [DecidableRel r] (cs : List (List Entry)) :
    ((cs.map (·.insertionSort r)).flatten).Perm cs.flatten := by
  induction cs with
  | nil => rfl
  | cons c rest ih =>
      simpa using List.Perm.append (List.perm_insertionSort r c) ih

theorem ceilSqrt_pos {n : ℕ} (hn : 1 ≤ n) : 1 ≤ ceilSqrt n := by
  rw [ceilSqrt]
  split
  · rename_i h
    by_contra hc
    have : Nat.sqrt n = 0 := by omega
    rw [this] at h
    omega
  · omega

/-- The bulk-load ordering (Hilbert or STR) is a permutation of the items
(spec §4.3 step 3 / §3 invariant 5). -/
theorem sortItems_perm (method : SortMethod) (M : ℕ) (hM : 1 ≤ M)
    (items : List Entry) : (sortItems method M items).Perm items := by
  cases method with
  | hilbert => exact List.perm_insertionSort _ items
  | str =>
      show (strSort M items).Perm items
      rw [strSort]
      by_cases h : items = []
      · subst h
        simp [chunkList, chunkListAux]
      · have hlen : 1 ≤ items.length := by
          cases items with
          | nil => exact absurd rfl h
          | cons a t => simp
        have hs : 1 ≤ ceilSqrt (items.length * M) :=
          ceilSqrt_pos (Nat.one_le_iff_ne_zero.mpr (by positivity))
        refine List.Perm.trans (flatten_map_insertionSort_perm centroidYLe _) ?_
        rw [chunkList_flatten _ hs]
        exact List.perm_insertionSort _ items

theorem buildRTree_nil_search (M : ℕ) (method : SortMethod) (q : Box) :
    (buildRTree M method []).search q = [] := by
  simp [buildRTree, Rtree.search, searchDown, childSlice]

theorem search_of_buildRTree (M : ℕ) (hM : 2 ≤ M) (method : SortMethod)
    (boxes : List Box) (q : Box) (hb : boxes ≠ []) :
    ∃ sorted : List Entry, sorted.Perm boxes.enum ∧
      (buildRTree M method boxes).search q
        = ((sorted.filter fun e => intersects e.2 q).map (·.1)) := by
  have hbe : boxes.isEmpty = false := by simpa [List.isEmpty_iff] using hb
  have hperm : (sortItems method M boxes.enum).Perm boxes.enum :=
    sortItems_perm method M (by omega) _
  have hsne : sortItems method M boxes.enum ≠ [] := by
    intro h
    have hlen := hperm.length_eq
    rw [h] at hlen
    simp only [List.length_nil, List.enum_length] at hlen
    exact hb (List.length_eq_zero.mp hlen.symm)
  obtain ⟨rootBox, topLvl, lowers, h1, h2, h3, h4, _⟩ :=
    buildGo_spec M hM (sortItems method M boxes.enum).length
      (sortItems method M boxes.enum) hsne le_rfl
  have hlev : (buildRTree M method boxes).levels
      = sortItems method M boxes.enum ::
          buildGoAux M (sortItems method M boxes.enum).length
            (sortItems method M boxes.enum) := by
    simp [buildRTree, hbe, buildLevels]
  have hns : (buildRTree M method boxes).nodeSize = M := by
    simp [buildRTree, hbe]
  have hrev : (buildRTree M method boxes).levels.reverse
      = [(0, rootBox)] :: topLvl :: lowers := by
    rw [hlev, List.reverse_cons, h1]
  have hs : (buildRTree M method boxes).search q
      = searchDown M q lowers (childSlice M topLvl (0, rootBox)) := by
    unfold Rtree.search
    rw [hrev, hns]
  rw [h3] at hs
  rw [searchDown_eq M q lowers topLvl topLvl h2 (fun _ he => he), h4] at hs
  exact ⟨sortItems method M boxes.enum, hperm, hs⟩

/-- C1: for every query box `Q` and every built R-tree, the multiset of
original-input indices returned by the tree's box search equals the multiset
of indices whose box intersects `Q` according to the naive O(N) scan over
the inputs. -/
theorem search_matches_naive_scan (M : ℕ) (hM : 2 ≤ M) (method : SortMethod)
    (boxes : List Box) (q : Box) :
    (((buildRTree M method boxes).search q : List ℕ) : Multiset ℕ)
      = ((naiveSearch boxes q : List ℕ) : Multiset ℕ) := by
  by_cases hb : boxes = []
  · subst hb
    rw [buildRTree_nil_search]
    simp [naiveSearch]
  · obtain ⟨sorted, hperm, hs⟩ := search_of_buildRTree M hM method boxes q hb
    rw [hs]
    exact Multiset.coe_eq_coe.mpr
      (List.Perm.map _ (List.Perm.filter _ hperm))

/-- Witness for C1: the spec's scenario S1 instantiated concretely. -/
theorem search_matches_naive_scan_witness :
    2 ≤ 16 ∧
      (((buildRTree 16 SortMethod.hilbert demoBoxes).search demoQuery : List ℕ) :
          Multiset ℕ)
        = ((naiveSearch demoBoxes demoQuery : List ℕ) : Multiset ℕ) :=
  ⟨by decide,
    search_matches_naive_scan 16 (by decide) SortMethod.hilbert demoBoxes demoQuery⟩

/-! ## Round-trip lemmas for the buffer layout -/

theorem buildGoAux_map_length (M : ℕ) (hM : 1 ≤ M) :
    ∀ (fuel : ℕ) (lvl : List Entry),
      (buildGoAux M fuel lvl).map List.length = levelSizesAux M fuel lvl.length := by
  intro fuel
  induction fuel with
  | zero =>
      intro lvl
      simp [buildGoAux, levelSizesAux, buildParentLevel_length M hM lvl]
  | succ fuel ih =>
      intro lvl
      have plen := buildParentLevel_length M hM lvl
      simp only [buildGoAux, levelSizesAux]
      by_cases hg : 1 < (lvl.length + M - 1) / M ∧
          (lvl.length + M - 1) / M < lvl.length
      · rw [if_pos (by rw [plen]; exact hg), if_pos hg, List.map_cons,
          ih (buildParentLevel M lvl), plen]
      · rw [if_neg (by rw [plen]; exact hg), if_neg hg, List.map_cons,
          List.map_nil, plen]

theorem buildRTree_levels_map_length (M : ℕ) (hM : 2 ≤ M) (method : SortMethod)
    (boxes : List Box) :
    (buildRTree M method boxes).levels.map List.length
      = levelSizes M boxes.length := by
  by_cases hb : boxes = []
  · subst hb
    simp [buildRTree, levelSizes]
  · have hbe : boxes.isEmpty = false := by simpa [List.isEmpty_iff] using hb
    have hperm : (sortItems method M boxes.enum).Perm boxes.enum :=
      sortItems_perm method M (by omega) _
    have hlen : (sortItems method M boxes.enum).length = boxes.length := by
      rw [hperm.length_eq, List.enum_length]
    have hn0 : boxes.length ≠ 0 := by
      intro h
      exact hb (List.length_eq_zero.mp h)
    simp only [buildRTree, hbe, Bool.false_eq_true, if_false, buildLevels,
      List.map_cons, buildGoAux_map_length M (by omega), hlen, levelSizes,
      hn0, if_false]

theorem chunkBoxes_flatMap :
    ∀ l : List Entry, chunkBoxes (l.flatMap fun e => encodeBox e.2) = l.map (·.2) := by
  intro l
  induction l with
  | nil => rfl
  | cons e t ih =>
      show chunkBoxes (e.2.minX :: e.2.minY :: e.2.maxX :: e.2.maxY ::
          (t.flatMap fun e => encodeBox e.2)) = List.map (fun x => x.2) (e :: t)
      simp only [chunkBoxes, ih]
      rfl

theorem length_flatMap_encodeBox :
    ∀ l : List Entry, (l.flatMap fun e => encodeBox e.2).length = 4 * l.length := by
  intro l
  induction l with
  | nil => rfl
  | cons e t ih =>
      rw [List.flatMap_cons, List.length_append, ih, encodeBox]
      simp only [List.length_cons, List.length_nil]
      omega

theorem chunkByLengths_flatten :
    ∀ ls : List (List α), chunkByLengths (ls.map List.length) ls.flatten = ls := by
  intro ls
  induction ls with
  | nil => rfl
  | cons a rest ih =>
      simp only [List.map_cons, List.flatten_cons, chunkByLengths,
        List.take_left, List.drop_left, ih]

theorem zip_proj (flat : List Entry) :
    (flat.map (·.1)).zip (chunkBoxes (flat.flatMap fun e => encodeBox e.2)) = flat := by
  rw [chunkBoxes_flatMap, List.zip_map']
  simp

/-- Parsing a serialized built tree recovers the tree exactly (spec §4.4:
validation reverses the construction; serialization is a pure memcpy). -/
theorem fromBuffer_toBuffer (M : ℕ) (hM2 : 2 ≤ M) (hM6 : M ≤ 65535)
    (method : SortMethod) (boxes : List Box) (hN : boxes.length < 4294967296) :
    fromBuffer (buildRTree M method boxes).toBuffer
      = .ok (buildRTree M method boxes) := by
  have hns : (buildRTree M method boxes).nodeSize = M := by
    rw [buildRTree]
    split <;> rfl
  have hni : (buildRTree M method boxes).numItems = boxes.length := by
    rw [buildRTree]
    split
    · rename_i h
      rw [List.isEmpty_iff] at h
      simp [h]
    · rfl
  have hmap : (buildRTree M method boxes).levels.map List.length
      = levelSizes M boxes.length := buildRTree_levels_map_length M hM2 method boxes
  have e1 : M % 256 + 256 * (M / 256 % 256) = M := by omega
  have e2 : boxes.length % 256 + 256 * (boxes.length / 256 % 256)
      + 65536 * (boxes.length / 65536 % 256)
      + 16777216 * (boxes.length / 16777216 % 256) = boxes.length := by omega
  have hflatlen : (buildRTree M method boxes).levels.flatten.length
      = (levelSizes M boxes.length).sum := by
    rw [List.length_flatten, hmap]
  rw [Rtree.toBuffer, hns, hni, fromBuffer]
  simp only [u16Bytes, u32Bytes, List.cons_append, List.nil_append,
    List.length_cons, List.length_nil, List.getD_cons_zero,
    List.getD_cons_succ, e1, e2]
  rw [if_neg (by omega), if_neg (by norm_num), if_neg (by norm_num),
    if_neg (by rw [length_flatMap_encodeBox, hflatlen]; simp),
    if_neg (by rw [List.length_map, hflatlen]; simp)]
  rw [zip_proj, ← hmap, chunkByLengths_flatten]
  have hrec : ∀ t : Rtree, t.numItems = boxes.length → t.nodeSize = M →
      (Except.ok { numItems := boxes.length, nodeSize := M, levels := t.levels }
        : Except FBError Rtree) = Except.ok t := by
    intro t h1 h2
    cases t
    simp_all
  exact hrec _ hni hns

/-! ## Claim theorems -/

/-- C2: for an R-tree built with N=5, `min_x = min_y = [0..4]`,
`max_x = max_y = [5..9]`, method hilbert, searching with the box
`(0.5, 0.5, 1.5, 1.5)` returns exactly the indices {0, 1}. -/
theorem search_s1_returns_indices_0_1 :
    (buildRTree 16 SortMethod.hilbert demoBoxes).search demoQuery = [0, 1] := by
  with_unfolding_all rfl

/-- C3: serializing a built tree with `to_buffer` and re-parsing with
`from_buffer` yields a tree with the same number of levels and, at every
level, the same box slice as the original. -/
theorem toBuffer_fromBuffer_roundtrip (M : ℕ) (hM2 : 2 ≤ M) (hM6 : M ≤ 65535)
    (method : SortMethod) (boxes : List Box) (hN : boxes.length < 4294967296) :
    ∃ t' : Rtree, fromBuffer (buildRTree M method boxes).toBuffer = .ok t' ∧
      t'.levels.length = (buildRTree M method boxes).levels.length ∧
      ∀ lvl : ℕ, boxesAtLevel t' lvl = boxesAtLevel (buildRTree M method boxes) lvl :=
  ⟨buildRTree M method boxes, fromBuffer_toBuffer M hM2 hM6 method boxes hN,
    rfl, fun _ => rfl⟩

/-- Witness for C3: the round trip at N=5, M=16, hilbert. -/
theorem toBuffer_fromBuffer_roundtrip_witness :
    2 ≤ 16 ∧ 16 ≤ 65535 ∧ demoBoxes.length < 4294967296 ∧
      ∃ t' : Rtree,
        fromBuffer (buildRTree 16 SortMethod.hilbert demoBoxes).toBuffer = .ok t' ∧
        t'.levels.length
          = (buildRTree 16 SortMethod.hilbert demoBoxes).levels.length ∧
        ∀ lvl : ℕ, boxesAtLevel t' lvl
          = boxesAtLevel (buildRTree 16 SortMethod.hilbert demoBoxes) lvl :=
  ⟨by decide, by decide, by decide,
    toBuffer_fromBuffer_roundtrip 16 (by decide) (by decide) SortMethod.hilbert
      demoBoxes (by decide)⟩

/-- C4: `from_buffer` on a byte sequence that is not in Flatbush format
(under 12 bytes, wrong magic, or unknown version — in particular the
11-byte `b"Hello world"`) fails with the distinct `NotFlatbush` error whose
message identifies data not in Flatbush format, and no tree is produced. -/
theorem fromBuffer_garbage_not_flatbush :
    (∀ b : FlatBuffer,
        b.headerBytes.length < 12 ∨ b.headerBytes.getD 0 0 ≠ 0xFB ∨
          b.headerBytes.getD 1 0 / 16 ≠ 3 →
        fromBuffer b = .error .notFlatbush) ∧
      fromBuffer helloWorldBuffer = .error .notFlatbush ∧
      FBError.message .notFlatbush = "Data not in Flatbush format" := by
  refine ⟨?_, rfl, rfl⟩
  · intro b hb
    rw [fromBuffer]
    by_cases h12 : b.headerBytes.length < 12
    · rw [if_pos h12]
    · rw [if_neg h12]
      rcases hh : b.headerBytes with _ | ⟨m, _ | ⟨vt, rest⟩⟩
      · rfl
      · rfl
      · rw [hh] at hb
        rcases hb with hb | hb | hb
        · exact absurd (hh ▸ hb) h12
        · simp only [List.getD_cons_zero] at hb
          simp [hb]
        · simp only [List.getD_cons_succ, List.getD_cons_zero] at hb
          by_cases hm : m = 0xFB
          · simp [hm, hb]
          · simp [hm]

/-- Witness for C4: `b"Hello world"` is 11 bytes, hence rejected. -/
theorem fromBuffer_garbage_not_flatbush_witness :
    helloWorldBuffer.headerBytes.length < 12 ∧
      fromBuffer helloWorldBuffer = .error .notFlatbush :=
  ⟨by decide,
    fromBuffer_garbage_not_flatbush.1 helloWorldBuffer (Or.inl (by decide))⟩

/-- C5: the first byte of the serialized buffer of every tree produced by
the builder equals the magic byte 0xFB, and this is preserved through a
`from_buffer` round trip. -/
theorem serialized_magic_byte (M : ℕ) (method : SortMethod) (boxes : List Box) :
    ((buildRTree M method boxes).toBuffer).headerBytes.head? = some 0xFB ∧
      ∀ t' : Rtree, fromBuffer (buildRTree M method boxes).toBuffer = .ok t' →
        t'.toBuffer.headerBytes.head? = some 0xFB :=
  ⟨rfl, fun _ _ => rfl⟩

/-- Witness for C5: the round-tripped N=5 tree still serializes with a
leading 0xFB. -/
theorem serialized_magic_byte_witness :
    (buildRTree 16 SortMethod.hilbert demoBoxes).toBuffer.headerBytes.head?
      = some 0xFB :=
  (serialized_magic_byte 16 SortMethod.hilbert demoBoxes).2
    (buildRTree 16 SortMethod.hilbert demoBoxes)
    (by with_unfolding_all rfl)

/-- C6: for a KD-tree built with N=5 points `x = y = [0..4]`, the range
query `range(tree, 0.5, 0.5, 1.5, 1.5)` returns exactly the single
index {1}. -/
theorem kdtree_range_s2_returns_index_1 :
    kdRange (mkRat 1 2) (mkRat 1 2) (mkRat 3 2) (mkRat 3 2)
      (buildKDTree 16 [0, 1, 2, 3, 4] [0, 1, 2, 3, 4]) = [1] := by
  with_unfolding_all rfl

/-- C7: for an R-tree built over N=5 items with the second builder argument
(node size) equal to 2, the `partition_id` column has exactly three
distinct values forming the contiguous range {0, 1, 2}, and every item
appears exactly once in the `indices` column. -/
theorem partitions_s5_three_partitions :
    ((buildRTree 2 SortMethod.hilbert demoBoxes).partitionIds).toFinset.card = 3 ∧
      ((buildRTree 2 SortMethod.hilbert demoBoxes).partitionIds).toFinset
        = Finset.range 3 ∧
      ((buildRTree 2 SortMethod.hilbert demoBoxes).partitionIndices).Perm
        (List.range 5) := by
  refine ⟨?_, ?_, ?_⟩ <;> exact of_decide_eq_true (by with_unfolding_all rfl)

/-- C8: search results are a deterministic function of the serialized
buffer and the query (two executions on the same buffer agree, including
emission order), while the emitted order is not guaranteed to be sorted by
index. -/
theorem search_deterministic_not_sorted :
    (∀ (M₁ M₂ : ℕ) (m₁ m₂ : SortMethod) (b₁ b₂ : List Box) (q : Box),
        2 ≤ M₁ → M₁ ≤ 65535 → b₁.length < 4294967296 →
        2 ≤ M₂ → M₂ ≤ 65535 → b₂.length < 4294967296 →
        (buildRTree M₁ m₁ b₁).toBuffer = (buildRTree M₂ m₂ b₂).toBuffer →
        (buildRTree M₁ m₁ b₁).search q = (buildRTree M₂ m₂ b₂).search q) ∧
      ¬ ((buildRTree 16 SortMethod.hilbert revBoxes).search
          ⟨-100, -100, 100, 100⟩).Sorted (· ≤ ·) := by
  constructor
  · intro M₁ M₂ m₁ m₂ b₁ b₂ q h1 h2 h3 h4 h5 h6 heq
    have r1 := fromBuffer_toBuffer M₁ h1 h2 m₁ b₁ h3
    have r2 := fromBuffer_toBuffer M₂ h4 h5 m₂ b₂ h6
    rw [heq, r2] at r1
    have hteq : buildRTree M₂ m₂ b₂ = buildRTree M₁ m₁ b₁ :=
      Except.ok.inj r1
    rw [hteq]
  · exact of_decide_eq_true (by with_unfolding_all rfl)

/-- Witness for C8: determinism applied at the concrete S1 build. -/
theorem search_deterministic_not_sorted_witness :
    (buildRTree 16 SortMethod.hilbert demoBoxes).search demoQuery
      = (buildRTree 16 SortMethod.hilbert demoBoxes).search demoQuery :=
  search_deterministic_not_sorted.1 16 16 SortMethod.hilbert SortMethod.hilbert
    demoBoxes demoBoxes demoQuery (by decide) (by decide) (by decide)
    (by decide) (by decide) (by decide) rfl

/-- C9: for the ascending diagonal input built with the Hilbert method, the
leaf permutation is the identity — `boxes_at_level(0)` returns the boxes in
original input order and `partitions()['indices']` equals [0, 1, 2, 3, 4]. -/
theorem hilbert_leaf_permutation_identity :
    boxesAtLevel (buildRTree 16 SortMethod.hilbert demoBoxes) 0 = demoBoxes ∧
      (buildRTree 2 SortMethod.hilbert demoBoxes).partitionIndices
        = [0, 1, 2, 3, 4] := by
  constructor <;> with_unfolding_all rfl

/-- C10: every `RTreeMethod` member's string value equals its member name
lowercased — `str(RTreeMethod.Hilbert) = "hilbert"`,
`str(RTreeMethod.STR) = "str"` — and constructing a `StrEnum` member from a
non-string value raises `TypeError`. -/
theorem strenum_lowercase_and_typeerror :
    (∀ m : PyRTreeMethod, m.value = pyLower m.memberName) ∧
      PyRTreeMethod.strOf .Hilbert = "hilbert" ∧
      PyRTreeMethod.strOf .STR = "str" ∧
      (∀ v : PyValue, v.isStr = false → strEnumNew v = .error .typeError) := by
  refine ⟨fun m => rfl, by decide, by decide, fun v hv => ?_⟩
  rw [strEnumNew, hv]
  rfl

/-- Witness for C10: the integer value 1 is not a string and is rejected. -/
theorem strenum_lowercase_and_typeerror_witness :
    (PyValue.pyInt 1).isStr = false ∧
      strEnumNew (PyValue.pyInt 1) = .error .typeError :=
  ⟨rfl, strenum_lowercase_and_typeerror.2.2.2 (PyValue.pyInt 1) rfl⟩

end GeoIndex
